import Mathlib

/-
  A verification development for the single-node proof-of-work ledger engine
  in src/final.ts (classes Transaction, Block, TransactionPool, UTXOPool and
  Blockchain, plus the level-backed disk layout).

  Modelling conventions:
  * JavaScript numbers that the program uses as integers (block numbers,
    nonces, timestamps) are ℕ; transaction values and account balances are ℤ.
  * `Block.sha256()` (SHA-256 of the JSON serialization) is an opaque
    cryptographic primitive; every definition that needs it takes a parameter
    `hash : Block → String`, and theorems quantify over that parameter.
  * The level key-value store is, as in the spec, an opaque get/put capability:
    it hands back exactly the values that were put.  A `Disk` records the
    "blockCount" cell (none = key absent) and the "block_<n>" cells.
  * The in-memory mutable state of the `Blockchain` object is a `NodeState`;
    methods become functions from state to state.
-/

/-- `class Transaction`: a transfer of `value` from `senderAddress` to
`recipientAddress`. -/
structure Transaction where
  senderAddress : String
  recipientAddress : String
  value : ℤ
  deriving DecidableEq

/-- `class Block`: block number, ordered transactions, timestamp (seconds),
mining nonce, and the hex hash of the previous block. -/
structure Block where
  blockNumber : ℕ
  transactions : List Transaction
  timestamp : ℕ
  nonce : ℕ
  prevBlock : String
  deriving DecidableEq

/-- An account address (`type Address = string`). -/
abbrev Address := String

/-- `Blockchain.GENESIS_BLOCK`: the fixed genesis block
`new Block(0, [], 0, 0, "fiat lux")`. -/
def Blockchain.GENESIS_BLOCK : Block := ⟨0, [], 0, 0, "fiat lux"⟩

/-- `Blockchain.DIFFICULTY = 4`. -/
def Blockchain.DIFFICULTY : ℕ := 4

/-- `Blockchain.MINING_SENDER = "<COINBASE>"`. -/
def Blockchain.MINING_SENDER : String := "<COINBASE>"

/-- `Blockchain.MINING_REWARD = 50`. -/
def Blockchain.MINING_REWARD : ℤ := 50

/-- `BLOCKS_IN_MEM = 10`: the size of the in-memory block window. -/
def BLOCKS_IN_MEM : ℕ := 10

/-- The numeric value of one hex digit, `none` for a non-hex character
(bignumber.js digit handling for base-16 input). -/
def hexDigitVal (c : Char) : Option ℕ :=
  if ('0' ≤ c ∧ c ≤ '9') then some (c.toNat - ('0').toNat)
  else if ('a' ≤ c ∧ c ≤ 'f') then some (c.toNat - ('a').toNat + 10)
  else if ('A' ≤ c ∧ c ≤ 'F') then some (c.toNat - ('A').toNat + 10)
  else none

/-- One step of the left-to-right (big-endian) accumulation of a hex string's
value; a non-digit poisons the parse. -/
def hexStep (acc : Option ℕ) (c : Char) : Option ℕ :=
  match acc, hexDigitVal c with
  | some n, some d => some (16 * n + d)
  | _, _ => none

/-- The `new BigNumber("0x...")` hex parse, restricted to the payloads the
program feeds it (strings of hex digits, e.g. SHA-256 outputs): `none` models
the constructor throwing (empty payload or a non-hex character), `some n` the
exact big-integer value. -/
def hexToNat? (l : List Char) : Option ℕ :=
  if l = [] then none else l.foldl hexStep (some 0)

/-- `Blockchain.isPoWValid` first ensures a `"0x"` prefix
(`if (!pow.startsWith("0x")) pow = "0x" + pow`); the characters BigNumber
then parses as hex digits are the original string minus an already-present
`"0x"` prefix. -/
def hexPayload (s : String) : List Char :=
  if s.data.take 2 = ['0', 'x'] then s.data.drop 2 else s.data

/-- The exact value of `Blockchain.TARGET.toString()`.  In the source,
`TARGET = 2 ** (256 - DIFFICULTY)` is an IEEE-754 double — exactly `2 ^ 252`,
since powers of two are representable — but JavaScript's `Number.toString`
renders the shortest decimal string that round-trips to that double, which is
`"7.237005577332262e+75"` (16 significant digits).  BigNumber parses that
string exactly, so the comparison threshold actually used is
`7237005577332262 * 10 ^ 60`, slightly below `2 ^ 252`.
`targetStringValue_is_shortest_roundtrip` below checks the round-trip facts
that single out this value. -/
def TARGET_STRING_VALUE : ℕ := 7237005577332262 * 10 ^ 60

/-- `Blockchain.isPoWValid(pow)`: parse the (prefixed) string as a hex
big-integer and compare it with `TARGET.toString()`; a parse failure is caught
and yields `false`. -/
def Blockchain.isPoWValid (pow : String) : Bool :=
  match hexToNat? (hexPayload pow) with
  | some n => decide (n ≤ TARGET_STRING_VALUE)
  | none => false

/-- Spec-side value of a hex digit (total). -/
def hexDigitValue (c : Char) : ℕ := (hexDigitVal c).getD 0

/-- Spec-side big-endian value of a list of hex digits, via `Nat.ofDigits`. -/
def hexNatValue (l : List Char) : ℕ :=
  Nat.ofDigits 16 ((l.map hexDigitValue).reverse)

/-- Whether a character is a hex digit. -/
def isHexDigitChar (c : Char) : Bool := (hexDigitVal c).isSome

/-- `UTXOPool.getBalance`: the pool maps addresses to balances, unknown
addresses implicitly holding 0; it is modelled as a total map with default 0
(`_.has` absence and an explicit 0 entry are indistinguishable to the
program). -/
def UTXOPool.getBalance (pool : Address → ℤ) (address : Address) : ℤ :=
  pool address

/-- `UTXOPool.transact(sender, recipient, amount)`: read both balances, debit
the sender, credit the recipient (reads happen before either write, and the
recipient write happens last), and return `true`; the insufficient-balance
branch in the source is empty by design. -/
def UTXOPool.transact (pool : Address → ℤ) (sender recipient : Address)
    (amount : ℤ) : (Address → ℤ) × Bool :=
  let balanceSender := UTXOPool.getBalance pool sender - amount
  let balanceRecipient := UTXOPool.getBalance pool recipient + amount
  let p1 := Function.update pool sender balanceSender
  let p2 := Function.update p1 recipient balanceRecipient
  (p2, true)

/-- `UTXOPool.applyTransactionsFromBlock(block)`: fold the block's
transactions in order, accumulating `mask = mask && transact(...)` with
JavaScript's short-circuit `&&` (once the mask is false, `transact` is not
invoked). -/
def UTXOPool.applyTransactionsFromBlock (pool : Address → ℤ) (block : Block) :
    (Address → ℤ) × Bool :=
  block.transactions.foldl
    (fun acc t =>
      if acc.2 then UTXOPool.transact acc.1 t.senderAddress t.recipientAddress t.value
      else acc)
    (pool, true)

/-- The loop body of `Blockchain.verify`, checking blocks from index `i`
onwards against their predecessor `prev`: block-number check (full mode only),
previous-hash link, and proof-of-work difficulty. -/
def Blockchain.verifyFrom (hash : Block → String) (part : Bool) :
    Block → List Block → ℕ → Bool
  | _, [], _ => true
  | prev, cur :: rest, i =>
    ((part || decide (cur.blockNumber = i)) &&
      (decide (cur.prevBlock = hash prev) &&
        (Blockchain.isPoWValid (hash cur) &&
          Blockchain.verifyFrom hash part cur rest (i + 1))))

/-- `static Blockchain.verify(blocks, partial)`: an empty chain is rejected;
in full mode the first block must equal genesis exactly; every later block is
checked by `verifyFrom` starting at index 1.  Any violated rule makes the
function return `false` (the source throws internally and catches). -/
def Blockchain.verify (hash : Block → String) (blocks : List Block)
    (part : Bool) : Bool :=
  match blocks with
  | [] => false
  | b0 :: rest =>
    (part || decide (b0 = Blockchain.GENESIS_BLOCK)) &&
      Blockchain.verifyFrom hash part b0 rest 1

/-- The persisted layout: the `"blockCount"` cell (none = key absent) and one
cell per block number.  The store hands back exactly what was put. -/
structure Disk where
  blockCount : Option ℕ
  blockAt : ℕ → Option Block

/-- A store with no prior data. -/
def emptyDisk : Disk := ⟨none, fun _ => none⟩

/-- `Blockchain.getBlockCountOnDisk()`: the `"blockCount"` record, with 0 for
an absent key (`err.notFound`) or an unreadable value. -/
def Blockchain.getBlockCountOnDisk (d : Disk) : ℕ :=
  d.blockCount.getD 0

/-- The write loop of `Blockchain.save()`: each block is put under the key
`block_<blockNumber>`, later writes winning. -/
def storeBlocks (f : ℕ → Option Block) (l : List Block) : ℕ → Option Block :=
  List.foldl (fun g b => Function.update g b.blockNumber (some b)) f l

/-- `Blockchain.getLastBlock()`: `blocks[blocks.length - 1]`.  The program
maintains the invariant that `blocks` is never empty; the default is only for
totality. -/
def Blockchain.getLastBlock (blocks : List Block) : Block :=
  blocks.getLast?.getD Blockchain.GENESIS_BLOCK

/-- `Blockchain.save()`: write the head's block number to `"blockCount"` and
every in-memory block to its keyed record. -/
def Blockchain.save (d : Disk) (blocks : List Block) : Disk :=
  ⟨some (Blockchain.getLastBlock blocks).blockNumber,
   storeBlocks d.blockAt blocks⟩

/-- `Blockchain.load(loadAll)` (the non-exceptional path): with a zero or
absent count initialize to `[GENESIS_BLOCK]`; otherwise read the keys of a
window `startBlock..endBlock` — `0..BLOCKS_IN_MEM-1` by default,
`count-BLOCKS_IN_MEM+1..count` when `count > BLOCKS_IN_MEM`, `0..count` when
`loadAll` — skipping individually missing keys. -/
def Blockchain.load (d : Disk) (loadAll : Bool) : List Block :=
  let blockCount := Blockchain.getBlockCountOnDisk d
  if blockCount = 0 then [Blockchain.GENESIS_BLOCK]
  else
    let startBlock :=
      if loadAll then 0
      else if BLOCKS_IN_MEM < blockCount then blockCount - BLOCKS_IN_MEM + 1
      else 0
    let endBlock :=
      if loadAll then blockCount
      else if BLOCKS_IN_MEM < blockCount then blockCount
      else BLOCKS_IN_MEM - 1
    (List.range' startBlock (endBlock + 1 - startBlock)).filterMap d.blockAt

/-- `Blockchain.getAllBlocks()`: if the count record is absent (or holds 0)
the generator yields nothing; otherwise it yields `loadBlockFromDisk(i)` for
every `i` in `0..blockCount`, including `none` for missing keys. -/
def Blockchain.getAllBlocks (d : Disk) : List (Option Block) :=
  let blockCount := Blockchain.getBlockCountOnDisk d
  if blockCount = 0 then [] else (List.range (blockCount + 1)).map d.blockAt

/-- The mutable state of a `Blockchain` object. -/
structure NodeState where
  nodeId : String
  blocks : List Block
  memPool : List Transaction
  utxo : Address → ℤ
  disk : Disk

/-- `Blockchain.addBlock(block)`: push; if the in-memory sequence now exceeds
`BLOCKS_IN_MEM`, persist it (before evicting) and then keep only the most
recent `BLOCKS_IN_MEM` blocks (`splice(0, length - BLOCKS_IN_MEM)`). -/
def Blockchain.addBlock (st : NodeState) (b : Block) : NodeState :=
  let bs := st.blocks ++ [b]
  if BLOCKS_IN_MEM < bs.length then
    ⟨st.nodeId, bs.drop (bs.length - BLOCKS_IN_MEM), st.memPool, st.utxo,
     Blockchain.save st.disk bs⟩
  else
    ⟨st.nodeId, bs, st.memPool, st.utxo, st.disk⟩

/-- One iteration of the candidate loop of `Blockchain.consensus`: skip a
candidate no longer than the best so far (`candidate.length <= maxLength`
continues), otherwise run full verification and on success record the new
best length and candidate. -/
def consensusStep (hash : Block → String) (acc : ℕ × Option (List Block))
    (candidate : List Block) : ℕ × Option (List Block) :=
  if candidate.length ≤ acc.1 then acc
  else if Blockchain.verify hash candidate false then (candidate.length, some candidate)
  else acc

/-- The candidate scan of `Blockchain.consensus`, starting from
`maxLength = 0` and no best candidate (`bestCandidateIndex = -1`); the strict
greater-than means the first of any equal-length ties wins. -/
def consensusScan (hash : Block → String) (blockchains : List (List Block)) :
    ℕ × Option (List Block) :=
  blockchains.foldl (consensusStep hash) (0, none)

/-- `Blockchain.consensus(blockchains)`: after the scan, replace the local
chain with the best candidate — and persist — exactly when a best candidate
exists and either it is strictly longer than the local chain or the local
chain fails full verification; report whether a replacement occurred. -/
def Blockchain.consensus (hash : Block → String) (st : NodeState)
    (blockchains : List (List Block)) : NodeState × Bool :=
  match (consensusScan hash blockchains).2 with
  | some best =>
    if st.blocks.length < (consensusScan hash blockchains).1 ∨
        Blockchain.verify hash st.blocks false = false then
      (⟨st.nodeId, best, st.memPool, st.utxo, Blockchain.save st.disk best⟩, true)
    else (st, false)
  | none => (st, false)

/-- The candidate block `mineBlock` rebuilds on every loop iteration: number
`lastBlock.blockNumber + 1`, the given transactions and timestamp, the current
nonce, and `prevBlock = lastBlock.sha256()`. -/
def mineCandidate (hash : Block → String) (lastBlock : Block)
    (transactions : List Transaction) (time : ℕ) (nonce : ℕ) : Block :=
  ⟨lastBlock.blockNumber + 1, transactions, time, nonce, hash lastBlock⟩

/-- Termination assumption of the mining loop: some nonce yields a hash
meeting the proof-of-work target. -/
def powHypothesis (hash : Block → String) (lastBlock : Block)
    (transactions : List Transaction) (time : ℕ) : Prop :=
  ∃ n : ℕ, Blockchain.isPoWValid (hash (mineCandidate hash lastBlock transactions time n)) = true

/-- `Blockchain.mineBlock(transactions)`: starting from nonce 0 and
incrementing by 1, return the candidate at the first nonce whose hash passes
`isPoWValid` — i.e. the least such nonce. -/
def Blockchain.mineBlock (hash : Block → String) (lastBlock : Block)
    (transactions : List Transaction) (time : ℕ)
    (h : powHypothesis hash lastBlock transactions time) : Block :=
  mineCandidate hash lastBlock transactions time (Nat.find h)

/-- The reward transaction `createBlock` prepends:
`new Transaction(MINING_SENDER, this.nodeId, MINING_REWARD)`. -/
def rewardTransaction (nodeId : String) : Transaction :=
  ⟨Blockchain.MINING_SENDER, nodeId, Blockchain.MINING_REWARD⟩

/-- `Blockchain.createBlock()`: mine a block over the reward transaction
followed by the current mempool contents, append it via `addBlock`, apply it
to the UTXO pool, clear the transaction pool, and save the chain. -/
def Blockchain.createBlock (hash : Block → String) (st : NodeState) (time : ℕ)
    (h : powHypothesis hash (Blockchain.getLastBlock st.blocks)
      (rewardTransaction st.nodeId :: st.memPool) time) : Block × NodeState :=
  let b := Blockchain.mineBlock hash (Blockchain.getLastBlock st.blocks)
    (rewardTransaction st.nodeId :: st.memPool) time h
  let st1 := Blockchain.addBlock st b
  (b, ⟨st1.nodeId, st1.blocks, [],
       (UTXOPool.applyTransactionsFromBlock st1.utxo b).1,
       Blockchain.save st1.disk st1.blocks⟩)

/-- The observable state of a `TransactionPool` after construction. -/
structure TransactionPoolState where
  memPool : List Transaction
  storagePath : Option String
  deriving DecidableEq

/-- `TransactionPool.loadFromDisk()`: with no `storagePath` set, reset the
pool to empty and return; otherwise read and deserialize the cache file
(`readFile` models `fs.readFileSync` + `JSON.parse` + `deserialize`, whose
failures — absent or corrupt file — are uncaught exceptions, there being no
try/catch on this path). -/
def transactionPoolLoad (storagePath : Option String)
    (readFile : String → Except String (List Transaction)) :
    Except String (List Transaction) :=
  match storagePath with
  | none => Except.ok []
  | some p => readFile p

/-- The `TransactionPool` constructor: set `memPool = []`, call
`loadFromDisk()` — at which point `this.storagePath` is still unassigned —
and only then assign `storagePath`.  An `Except.error` would model an
exception escaping the constructor. -/
def transactionPoolInit (nodeId : String)
    (readFile : String → Except String (List Transaction)) :
    Except String TransactionPoolState :=
  let pathAtLoadTime : Option String := none
  match transactionPoolLoad pathAtLoadTime readFile with
  | Except.ok pool =>
    Except.ok ⟨pool, some (nodeId ++ ".transactions")⟩
  | Except.error e => Except.error e

/-- Scenario: the chain/disk state after folding `addBlock` over blocks
`g 1, …, g n`, starting from state `st0`. -/
def chainAfterAppends (g : ℕ → Block) (st0 : NodeState) (n : ℕ) : NodeState :=
  List.foldl Blockchain.addBlock st0 ((List.range' 1 n).map g)

/-- A trivial hash function used to instantiate theorems at concrete inputs:
every block hashes to `"0"`, whose value 0 passes the proof-of-work check. -/
def hash0 : Block → String := fun _ => "0"

/-- A simple block with a given number, used in concrete scenarios. -/
def blkW (i : ℕ) : Block := ⟨i, [], 0, 0, ""⟩

/-- A block that extends the genesis block under `hash0`. -/
def b1W : Block := ⟨1, [], 0, 0, "0"⟩

/-- A node whose local chain is just the genesis block. -/
def stW : NodeState := ⟨"n", [Blockchain.GENESIS_BLOCK], [], fun _ => 0, emptyDisk⟩

/-- A node whose local chain `[genesis, genesis]` fails full verification
(the second block's number is 0, not 1). -/
def stBad : NodeState :=
  ⟨"n", [Blockchain.GENESIS_BLOCK, Blockchain.GENESIS_BLOCK], [], fun _ => 0, emptyDisk⟩

/-- A store persisted up to block number 10 (count record = 10, keys 0..10
present). -/
def d10 : Disk := ⟨some 10, fun i => if i ≤ 10 then some (blkW i) else none⟩

/-- A store persisted up to block number 3 (count record = 3, keys 0..3
present). -/
def d3 : Disk := ⟨some 3, fun i => if i ≤ 3 then some (blkW i) else none⟩

/-- A fresh node holding one pending transaction. -/
def st5 : NodeState :=
  ⟨"me", [Blockchain.GENESIS_BLOCK], [⟨"a", "b", 7⟩], fun _ => 0, emptyDisk⟩

/-- A node state for exercising the append window, starting from `blkW 0`. -/
def stW6 : NodeState := ⟨"n", [blkW 0], [], fun _ => 0, emptyDisk⟩

/-
  Theorems.
-/

/-- Justification for `TARGET_STRING_VALUE`: the double `2 ** 252` has unit in
the last place `2 ^ 200`, so a decimal string round-trips to it iff its value
is within `2 ^ 199` of `2 ^ 252`.  (a) `TARGET_STRING_VALUE` round-trips;
(b) no decimal with at most 15 significant digits — i.e. no multiple of
`10 ^ 61` in the relevant range — round-trips, so 16 digits are needed;
(c) `TARGET_STRING_VALUE` is strictly closer to `2 ^ 252` than the next
16-digit candidate `7237005577332263e60`, so `toString` picks it. -/
theorem targetStringValue_is_shortest_roundtrip :
    2 * (2 ^ 252 - TARGET_STRING_VALUE) < 2 ^ 200 ∧
    (∀ k : ℕ, ¬(2 ^ 252 - 2 ^ 199 ≤ k * 10 ^ 61 ∧ k * 10 ^ 61 ≤ 2 ^ 252 + 2 ^ 199)) ∧
    2 ^ 252 - TARGET_STRING_VALUE < (TARGET_STRING_VALUE + 10 ^ 60) - 2 ^ 252 := by
  refine ⟨by decide, fun k hk => ?_, by decide⟩
  have e1 : (2 : ℕ) ^ 252 = 7237005577332262213973186563042994240829374041602535252466099000494570602496 := by decide
  have e2 : (2 : ℕ) ^ 199 = 803469022129495137770981046170581301261101496891396417650688 := by decide
  have e3 : (10 : ℕ) ^ 61 = 10000000000000000000000000000000000000000000000000000000000000 := by decide
  rw [e1, e2, e3] at hk
  omega

/-- Horner accumulation of the hex parser agrees with `hexNatValue` on strings
of hex digits. -/
lemma hexFoldl_eq (l : List Char) :
    ∀ n : ℕ, (∀ c ∈ l, isHexDigitChar c = true) →
      l.foldl hexStep (some n) = some (n * 16 ^ l.length + hexNatValue l) := by
  induction l with
  | nil =>
    intro n _
    simp [hexNatValue, Nat.ofDigits]
  | cons c t ih =>
    intro n hall
    have hc : isHexDigitChar c = true := hall c (List.mem_cons_self c t)
    obtain ⟨d, hd⟩ : ∃ d, hexDigitVal c = some d := by
      rcases h : hexDigitVal c with _ | d
      · rw [isHexDigitChar, h] at hc
        simp at hc
      · exact ⟨d, rfl⟩
    have hstep : hexStep (some n) c = some (16 * n + d) := by
      simp [hexStep, hd]
    have hval : hexDigitValue c = d := by
      simp [hexDigitValue, hd]
    have ht : ∀ c ∈ t, isHexDigitChar c = true :=
      fun x hx => hall x (List.mem_cons_of_mem c hx)
    have hrec := ih (16 * n + d) ht
    have hcons : hexNatValue (c :: t) = hexNatValue t + 16 ^ t.length * d := by
      simp only [hexNatValue, List.map_cons, List.reverse_cons, Nat.ofDigits_append,
        List.length_reverse, List.length_map, Nat.ofDigits_singleton, hval]
    calc (c :: t).foldl hexStep (some n)
        = t.foldl hexStep (hexStep (some n) c) := by simp [List.foldl_cons]
      _ = t.foldl hexStep (some (16 * n + d)) := by rw [hstep]
      _ = some ((16 * n + d) * 16 ^ t.length + hexNatValue t) := hrec
      _ = some (n * 16 ^ (c :: t).length + hexNatValue (c :: t)) := by
          rw [hcons]
          congr 1
          simp [List.length_cons, pow_succ]
          ring

/-- For a nonempty string of hex digits, the payload of `isPoWValid` is the
string itself (the `"0x"` test cannot fire: `x` is not a hex digit). -/
lemma hexPayload_of_hex (l : List Char) (h2 : ∀ c ∈ l, isHexDigitChar c = true) :
    hexPayload (String.mk l) = l := by
  have hdata : (String.mk l).data = l := rfl
  rw [hexPayload, hdata]
  rcases l with _ | ⟨a, _ | ⟨b, t⟩⟩
  · simp
  · simp
  · rw [if_neg]
    intro heq
    simp only [List.take, List.cons.injEq] at heq
    have hb : b = 'x' := heq.2.1
    have := h2 b (List.mem_cons_of_mem a (List.mem_cons_self b t))
    rw [hb] at this
    simp [isHexDigitChar, hexDigitVal] at this

/-- Claim C2 (amended): for every nonempty string of hex digits, `isPoWValid`
returns true iff its big-integer value is at most `TARGET_STRING_VALUE`
(the exact value of `TARGET.toString()`), which is strictly below
`2 ^ (256 - DIFFICULTY)`; hence validity implies value ≤ `2 ^ 252`, but not
conversely. -/
theorem isPoWValid_characterization (l : List Char) (h1 : l ≠ [])
    (h2 : ∀ c ∈ l, isHexDigitChar c = true) :
    (Blockchain.isPoWValid (String.mk l) = true ↔ hexNatValue l ≤ TARGET_STRING_VALUE) ∧
    TARGET_STRING_VALUE < 2 ^ (256 - Blockchain.DIFFICULTY) ∧
    (Blockchain.isPoWValid (String.mk l) = true →
      hexNatValue l ≤ 2 ^ (256 - Blockchain.DIFFICULTY)) := by
  have hpay : hexPayload (String.mk l) = l := hexPayload_of_hex l h2
  have hparse : hexToNat? l = some (hexNatValue l) := by
    rw [hexToNat?, if_neg h1]
    have := hexFoldl_eq l 0 h2
    simpa using this
  have hiff : Blockchain.isPoWValid (String.mk l) = true ↔
      hexNatValue l ≤ TARGET_STRING_VALUE := by
    rw [Blockchain.isPoWValid, hpay, hparse]
    simp
  have hlt : TARGET_STRING_VALUE < 2 ^ (256 - Blockchain.DIFFICULTY) := by decide
  exact ⟨hiff, hlt, fun h => le_trans (hiff.mp h) (le_of_lt hlt)⟩

/-- Claim C2, counterexample: the hex string for `2 ^ 252` itself ("1"
followed by 63 zeros) has value exactly `2 ^ (256 - DIFFICULTY)`, so the
claimed exact comparison would accept it, but `isPoWValid` returns false. -/
theorem isPoWValid_rejects_two_pow_252 :
    Blockchain.isPoWValid (String.mk ('1' :: List.replicate 63 '0')) = false ∧
    hexNatValue ('1' :: List.replicate 63 '0') = 2 ^ (256 - Blockchain.DIFFICULTY) := by
  constructor
  · decide
  · decide

/-- Witness for `isPoWValid_characterization` at the one-digit string "0". -/
theorem isPoWValid_characterization_witness :
    hexNatValue ['0'] ≤ TARGET_STRING_VALUE ∧
    Blockchain.isPoWValid (String.mk ['0']) = true :=
  ⟨by decide,
   (isPoWValid_characterization ['0'] (by decide) (by decide)).1.mpr (by decide)⟩

/-- The mask of `applyTransactionsFromBlock` never trips: since `transact`
always returns true, the masked fold is the plain sequential application. -/
lemma applyFold_eq (l : List Transaction) : ∀ pool : Address → ℤ,
    l.foldl
      (fun acc t =>
        if acc.2 then UTXOPool.transact acc.1 t.senderAddress t.recipientAddress t.value
        else acc)
      (pool, true)
    = (l.foldl (fun p t => (UTXOPool.transact p t.senderAddress t.recipientAddress t.value).1) pool,
       true) := by
  induction l with
  | nil => intro pool; rfl
  | cons t ts ih =>
    intro pool
    rw [List.foldl_cons, List.foldl_cons]
    exact ih ((UTXOPool.transact pool t.senderAddress t.recipientAddress t.value).1)

/-- Claim C3 (amended): for distinct addresses, `transact` debits the sender
by the amount and credits the recipient by the same amount, leaving all other
balances unchanged; when sender = recipient, the recipient write overwrites
the sender debit, so that balance changes by +amount (not 0); `transact`
always reports success, and `applyTransactionsFromBlock` applies the block's
transactions in order under this rule, always reporting success. -/
theorem transact_balance_changes (pool : Address → ℤ) (s r : Address) (a : ℤ)
    (b : Block) :
    (s ≠ r →
      (UTXOPool.transact pool s r a).1 s = pool s - a ∧
      (UTXOPool.transact pool s r a).1 r = pool r + a) ∧
    (s = r → (UTXOPool.transact pool s r a).1 s = pool s + a) ∧
    (∀ x, x ≠ s → x ≠ r → (UTXOPool.transact pool s r a).1 x = pool x) ∧
    (UTXOPool.transact pool s r a).2 = true ∧
    (UTXOPool.applyTransactionsFromBlock pool b).2 = true ∧
    (UTXOPool.applyTransactionsFromBlock pool b).1 =
      b.transactions.foldl
        (fun p t => (UTXOPool.transact p t.senderAddress t.recipientAddress t.value).1)
        pool := by
  refine ⟨?_, ?_, ?_, rfl, ?_, ?_⟩
  · intro hne
    constructor
    · show Function.update (Function.update pool s (pool s - a)) r (pool r + a) s = pool s - a
      rw [Function.update_noteq hne, Function.update_same]
    · show Function.update (Function.update pool s (pool s - a)) r (pool r + a) r = pool r + a
      rw [Function.update_same]
  · intro heq
    subst heq
    show Function.update (Function.update pool s (pool s - a)) s (pool s + a) s = pool s + a
    rw [Function.update_same]
  · intro x hxs hxr
    show Function.update (Function.update pool s (pool s - a)) r (pool r + a) x = pool x
    rw [Function.update_noteq hxr, Function.update_noteq hxs]
  · rw [UTXOPool.applyTransactionsFromBlock, applyFold_eq]
  · rw [UTXOPool.applyTransactionsFromBlock, applyFold_eq]

/-- Claim C3, counterexample: a self-transfer of 5 from address "a" to itself
on the empty pool leaves "a" with balance 5, not the claimed net change 0. -/
theorem transact_self_transfer_credits_amount :
    (UTXOPool.transact (fun _ => 0) ("a") ("a") 5).1 ("a") = 5 ∧ ((5 : ℤ) ≠ 0) := by
  constructor
  · decide
  · decide

/-- Witness for `transact_balance_changes` on distinct addresses. -/
theorem transact_balance_changes_witness :
    (UTXOPool.transact (fun _ => 0) ("a") ("b") 3).1 ("a") = 0 - 3 ∧
    (UTXOPool.transact (fun _ => 0) ("a") ("b") 3).1 ("b") = 0 + 3 :=
  (transact_balance_changes (fun _ => 0) ("a") ("b") 3 Blockchain.GENESIS_BLOCK).1
    (by decide)

/-- Claim C9: in partial mode a one-element chain passes `verify` whatever its
fields — the genesis comparison is skipped and the checking loop is empty, so
the post-load self-check accepts any singleton window. -/
theorem verify_singleton_partial (hash : Block → String) (b : Block) :
    Blockchain.verify hash [b] true = true := by
  simp [Blockchain.verify, Blockchain.verifyFrom]

/-- Claim C10: with an absent or zero `"blockCount"` record, `getAllBlocks`
yields nothing, even though `load` puts the genesis block in memory. -/
theorem getAllBlocks_empty_when_no_count (d : Disk)
    (h : Blockchain.getBlockCountOnDisk d = 0) :
    Blockchain.getAllBlocks d = [] ∧
    Blockchain.load d false = [Blockchain.GENESIS_BLOCK] := by
  constructor
  · simp [Blockchain.getAllBlocks, h]
  · simp [Blockchain.load, h]

/-- Witness for `getAllBlocks_empty_when_no_count` on a fresh store. -/
theorem getAllBlocks_empty_when_no_count_witness :
    Blockchain.getAllBlocks emptyDisk = [] ∧
    Blockchain.load emptyDisk false = [Blockchain.GENESIS_BLOCK] :=
  getAllBlocks_empty_when_no_count emptyDisk rfl

/-- Claim C8 (the code's actual behavior): the `TransactionPool` constructor
calls `loadFromDisk()` before `this.storagePath` is assigned, so the
`!this.storagePath` guard always resets the pool to empty and returns — the
cache file is never read, no restore ever happens, and (trivially) no
exception escapes. -/
theorem transactionPoolInit_never_restores (nodeId : String)
    (readFile : String → Except String (List Transaction)) :
    transactionPoolInit nodeId readFile =
      Except.ok ⟨[], some (nodeId ++ ".transactions")⟩ := rfl

/-- Soundness of the verification loop: if `verifyFrom hash part prev l k`
succeeds, every block of `l` carries the expected number (full mode), links to
its predecessor's hash, and meets the proof-of-work target. -/
lemma verifyFrom_sound (hash : Block → String) (part : Bool) :
    ∀ (l : List Block) (prev : Block) (k : ℕ),
      Blockchain.verifyFrom hash part prev l k = true →
      ∀ j (hj : j < l.length),
        (part = false → (l.get ⟨j, hj⟩).blockNumber = k + j) ∧
        (l.get ⟨j, hj⟩).prevBlock = hash ((prev :: l).get ⟨j, Nat.lt_succ_of_lt hj⟩) ∧
        Blockchain.isPoWValid (hash (l.get ⟨j, hj⟩)) = true := by
  intro l
  induction l with
  | nil =>
    intro prev k hv j hj
    exact absurd hj (by simp)
  | cons c t ih =>
    intro prev k hv j hj
    simp only [Blockchain.verifyFrom, Bool.and_eq_true, Bool.or_eq_true,
      decide_eq_true_eq] at hv
    obtain ⟨hnum, hlink, hpow, hrest⟩ := hv
    cases j with
    | zero =>
      refine ⟨fun hf => ?_, ?_, ?_⟩
      · rcases hnum with hp | hn
        · rw [hf] at hp; exact absurd hp (by simp)
        · simpa using hn
      · simpa using hlink
      · simpa using hpow
    | succ j =>
      have hj' : j < t.length := Nat.lt_of_succ_lt_succ hj
      have IH := ih c (k + 1) hrest j hj'
      refine ⟨fun hf => ?_, ?_, ?_⟩
      · have := IH.1 hf
        simp only [List.get_cons_succ]
        omega
      · simpa using IH.2.1
      · simpa using IH.2.2

/-- Claim C4: necessary conditions of `verify`.  A successful verification
implies the chain is nonempty; in full mode the first block is genesis and
block `i` carries number `i` for every `i ≥ 1`; and in both modes every block
after the first links to the hash of its predecessor and its own hash meets
the proof-of-work target. -/
theorem verify_necessary_conditions (hash : Block → String) (bs : List Block)
    (part : Bool) (hv : Blockchain.verify hash bs part = true) :
    bs ≠ [] ∧
    (part = false → bs.head? = some Blockchain.GENESIS_BLOCK) ∧
    (part = false →
      ∀ j (hj : j + 1 < bs.length), (bs.get ⟨j + 1, hj⟩).blockNumber = j + 1) ∧
    (∀ j (hj : j + 1 < bs.length),
      (bs.get ⟨j + 1, hj⟩).prevBlock = hash (bs.get ⟨j, Nat.lt_of_succ_lt hj⟩) ∧
      Blockchain.isPoWValid (hash (bs.get ⟨j + 1, hj⟩)) = true) := by
  cases bs with
  | nil => exact absurd hv (by simp [Blockchain.verify])
  | cons b0 rest =>
    simp only [Blockchain.verify, Bool.and_eq_true, Bool.or_eq_true,
      decide_eq_true_eq] at hv
    have hsound := verifyFrom_sound hash part rest b0 1 hv.2
    refine ⟨by simp, fun hf => ?_, fun hf j hj => ?_, fun j hj => ?_⟩
    · rcases hv.1 with hp | hg
      · rw [hf] at hp; exact absurd hp (by simp)
      · rw [hg]; rfl
    · have hj' : j < rest.length := Nat.lt_of_succ_lt_succ hj
      have := (hsound j hj').1 hf
      simp only [List.get_cons_succ]
      omega
    · have hj' : j < rest.length := Nat.lt_of_succ_lt_succ hj
      have h1 := (hsound j hj').2.1
      have h2 := (hsound j hj').2.2
      constructor
      · simpa using h1
      · simpa using h2

/-- Witness for `verify_necessary_conditions` on the two-block chain
`[genesis, b1W]` under `hash0`. -/
theorem verify_necessary_conditions_witness :
    ([Blockchain.GENESIS_BLOCK, b1W] ≠ ([] : List Block)) ∧
    [Blockchain.GENESIS_BLOCK, b1W].head? = some Blockchain.GENESIS_BLOCK :=
  ⟨(verify_necessary_conditions hash0 [Blockchain.GENESIS_BLOCK, b1W] false
      (by decide)).1,
   (verify_necessary_conditions hash0 [Blockchain.GENESIS_BLOCK, b1W] false
      (by decide)).2.1 rfl⟩

/-- Soundness of the candidate scan: whatever best candidate the fold ends
with either came from the scanned list or was already in the accumulator, it
passes full verification, and the recorded maximum length is its length. -/
lemma consensusScan_sound (hash : Block → String) :
    ∀ (l : List (List Block)) (acc : ℕ × Option (List Block)),
      (∀ c, acc.2 = some c →
        Blockchain.verify hash c false = true ∧ acc.1 = c.length) →
      ∀ c, (List.foldl (consensusStep hash) acc l).2 = some c →
        (c ∈ l ∨ acc.2 = some c) ∧
        Blockchain.verify hash c false = true ∧
        (List.foldl (consensusStep hash) acc l).1 = c.length := by
  intro l
  induction l with
  | nil =>
    intro acc hacc c hc
    exact ⟨Or.inr hc, (hacc c hc).1, (hacc c hc).2⟩
  | cons x xs ih =>
    intro acc hacc c hc
    rw [List.foldl_cons] at hc
    have hstep : ∀ d, (consensusStep hash acc x).2 = some d →
        Blockchain.verify hash d false = true ∧ (consensusStep hash acc x).1 = d.length := by
      intro d hd
      by_cases h1 : x.length ≤ acc.1
      · rw [consensusStep, if_pos h1] at hd ⊢
        exact hacc d hd
      · by_cases h2 : Blockchain.verify hash x false = true
        · rw [consensusStep, if_neg h1, if_pos h2] at hd ⊢
          simp only [Option.some.injEq] at hd
          subst hd
          exact ⟨h2, rfl⟩
        · rw [consensusStep, if_neg h1, if_neg h2] at hd ⊢
          exact hacc d hd
    have hmain := ih (consensusStep hash acc x) hstep c hc
    rw [List.foldl_cons]
    refine ⟨?_, hmain.2.1, hmain.2.2⟩
    rcases hmain.1 with h | h
    · exact Or.inl (List.mem_cons_of_mem x h)
    · by_cases h1 : x.length ≤ acc.1
      · rw [consensusStep, if_pos h1] at h
        exact Or.inr h
      · by_cases h2 : Blockchain.verify hash x false = true
        · rw [consensusStep, if_neg h1, if_pos h2] at h
          simp only [Option.some.injEq] at h
          exact Or.inl (by rw [← h]; exact List.mem_cons_self x xs)
        · rw [consensusStep, if_neg h1, if_neg h2] at h
          exact Or.inr h

/-- Claim C1 (amended): when `consensus` reports a replacement, the adopted
chain is one of the candidates, passes full verification, and is either
strictly longer than the local chain or the local chain itself fails full
verification (so a shorter valid candidate can be adopted, but only when the
local chain is invalid); the adopted chain is persisted.  When it reports no
replacement, the state is unchanged. -/
theorem consensus_replacement_characterization (hash : Block → String)
    (st : NodeState) (cands : List (List Block)) :
    ((Blockchain.consensus hash st cands).2 = true →
      (Blockchain.consensus hash st cands).1.blocks ∈ cands ∧
      Blockchain.verify hash (Blockchain.consensus hash st cands).1.blocks false = true ∧
      (st.blocks.length < (Blockchain.consensus hash st cands).1.blocks.length ∨
        Blockchain.verify hash st.blocks false = false) ∧
      (Blockchain.consensus hash st cands).1.disk =
        Blockchain.save st.disk (Blockchain.consensus hash st cands).1.blocks) ∧
    ((Blockchain.consensus hash st cands).2 = false →
      (Blockchain.consensus hash st cands).1 = st) := by
  rcases hscan : (consensusScan hash cands).2 with _ | best
  · have hred : Blockchain.consensus hash st cands = (st, false) := by
      unfold Blockchain.consensus
      rw [hscan]
    rw [hred]
    exact ⟨fun h => absurd h (by simp), fun _ => rfl⟩
  · have hbest := consensusScan_sound hash cands (0, none)
      (fun c hc => absurd hc (by simp)) best hscan
    have hmem : best ∈ cands := by
      rcases hbest.1 with h | h
      · exact h
      · exact absurd h (by simp)
    have hlenEq : (consensusScan hash cands).1 = best.length := hbest.2.2
    by_cases hcond : st.blocks.length < (consensusScan hash cands).1 ∨
        Blockchain.verify hash st.blocks false = false
    · have hred : Blockchain.consensus hash st cands =
          (⟨st.nodeId, best, st.memPool, st.utxo, Blockchain.save st.disk best⟩, true) := by
        unfold Blockchain.consensus
        simp only [hscan]
        rw [if_pos hcond]
      rw [hred]
      refine ⟨fun _ => ⟨hmem, hbest.2.1, ?_, rfl⟩, fun h => absurd h (by simp)⟩
      rcases hcond with hlen | hver
      · exact Or.inl (by rw [hlenEq] at hlen; exact hlen)
      · exact Or.inr hver
    · have hred : Blockchain.consensus hash st cands = (st, false) := by
        unfold Blockchain.consensus
        simp only [hscan]
        rw [if_neg hcond]
      rw [hred]
      exact ⟨fun h => absurd h (by simp), fun _ => rfl⟩

/-- Claim C1, counterexample: with a local chain `[genesis, genesis]` (length
2, failing full verification) and the single candidate `[genesis]` (length 1,
passing full verification), `consensus` reports a replacement and adopts a
candidate strictly shorter than the local chain. -/
theorem consensus_adopts_shorter_when_local_invalid :
    (Blockchain.consensus hash0 stBad [[Blockchain.GENESIS_BLOCK]]).2 = true ∧
    (Blockchain.consensus hash0 stBad [[Blockchain.GENESIS_BLOCK]]).1.blocks.length <
      stBad.blocks.length := by
  constructor
  · decide
  · decide

/-- Witness for `consensus_replacement_characterization`: a genesis-only node
adopts the longer valid candidate `[genesis, b1W]` under `hash0`. -/
theorem consensus_replacement_characterization_witness :
    (Blockchain.consensus hash0 stW [[Blockchain.GENESIS_BLOCK, b1W]]).1.blocks
        ∈ [[Blockchain.GENESIS_BLOCK, b1W]] ∧
    Blockchain.verify hash0
      (Blockchain.consensus hash0 stW [[Blockchain.GENESIS_BLOCK, b1W]]).1.blocks
      false = true ∧
    (stW.blocks.length <
        (Blockchain.consensus hash0 stW [[Blockchain.GENESIS_BLOCK, b1W]]).1.blocks.length ∨
      Blockchain.verify hash0 stW.blocks false = false) ∧
    (Blockchain.consensus hash0 stW [[Blockchain.GENESIS_BLOCK, b1W]]).1.disk =
      Blockchain.save stW.disk
        (Blockchain.consensus hash0 stW [[Blockchain.GENESIS_BLOCK, b1W]]).1.blocks :=
  (consensus_replacement_characterization hash0 stW
    [[Blockchain.GENESIS_BLOCK, b1W]]).1 (by decide)

/-- A `filterMap` over keys that are all present is the `map` of their
values. -/
lemma filterMap_eq_map_of_some (h : ℕ → Option Block) (f : ℕ → Block) :
    ∀ l : List ℕ, (∀ i ∈ l, h i = some (f i)) → l.filterMap h = l.map f := by
  intro l
  induction l with
  | nil => intro _; rfl
  | cons x xs ih =>
    intro hall
    rw [List.filterMap_cons, hall x (List.mem_cons_self x xs), List.map_cons,
      ih (fun i hi => hall i (List.mem_cons_of_mem x hi))]

/-- A `filterMap` over keys that are all absent is empty. -/
lemma filterMap_eq_nil_of_none (h : ℕ → Option Block) :
    ∀ l : List ℕ, (∀ i ∈ l, h i = none) → l.filterMap h = [] := by
  intro l
  induction l with
  | nil => intro _; rfl
  | cons x xs ih =>
    intro hall
    rw [List.filterMap_cons, hall x (List.mem_cons_self x xs),
      ih (fun i hi => hall i (List.mem_cons_of_mem x hi))]

/-- Claim C7 (amended): on a store whose keys `0..count` are present and whose
higher keys are absent, `load` yields `[genesis]` for a zero or absent count;
with `loadAll` it yields the entire range `0..count`; without `loadAll`, when
`count > BLOCKS_IN_MEM` it yields exactly the last `BLOCKS_IN_MEM` blocks
`count-BLOCKS_IN_MEM+1..count` (head included), but when
`0 < count ≤ BLOCKS_IN_MEM` it reads keys `0..BLOCKS_IN_MEM-1` — skipping the
missing ones — so it yields `0..min(count, BLOCKS_IN_MEM-1)`, which for
`count = BLOCKS_IN_MEM` omits the head block. -/
theorem load_characterization (d : Disk) (f : ℕ → Block)
    (hf : ∀ i, i ≤ Blockchain.getBlockCountOnDisk d → d.blockAt i = some (f i))
    (hnone : ∀ i, Blockchain.getBlockCountOnDisk d < i → d.blockAt i = none) :
    (Blockchain.getBlockCountOnDisk d = 0 →
      ∀ la, Blockchain.load d la = [Blockchain.GENESIS_BLOCK]) ∧
    (Blockchain.getBlockCountOnDisk d ≠ 0 →
      Blockchain.load d true =
        (List.range (Blockchain.getBlockCountOnDisk d + 1)).map f) ∧
    (BLOCKS_IN_MEM < Blockchain.getBlockCountOnDisk d →
      Blockchain.load d false =
        (List.range' (Blockchain.getBlockCountOnDisk d - BLOCKS_IN_MEM + 1)
          BLOCKS_IN_MEM).map f) ∧
    (Blockchain.getBlockCountOnDisk d ≠ 0 →
      Blockchain.getBlockCountOnDisk d ≤ BLOCKS_IN_MEM →
      Blockchain.load d false =
        (List.range (min (Blockchain.getBlockCountOnDisk d + 1) BLOCKS_IN_MEM)).map f) := by
  refine ⟨fun h0 la => ?_, fun hne => ?_, fun hgt => ?_, fun hne hle => ?_⟩
  · simp [Blockchain.load, h0]
  · simp only [Blockchain.load, if_neg hne, if_true, Nat.sub_zero]
    rw [filterMap_eq_map_of_some d.blockAt f _ ?_, List.range_eq_range']
    intro i hi
    rw [List.mem_range'_1] at hi
    exact hf i (by omega)
  · have hne : Blockchain.getBlockCountOnDisk d ≠ 0 := by
      simp only [BLOCKS_IN_MEM] at hgt
      omega
    simp only [Blockchain.load, if_neg hne, Bool.false_eq_true, if_false, if_pos hgt]
    have hlen : Blockchain.getBlockCountOnDisk d + 1 -
        (Blockchain.getBlockCountOnDisk d - BLOCKS_IN_MEM + 1) = BLOCKS_IN_MEM := by
      simp only [BLOCKS_IN_MEM] at hgt ⊢
      omega
    rw [hlen, filterMap_eq_map_of_some d.blockAt f _ ?_]
    intro i hi
    rw [List.mem_range'_1] at hi
    refine hf i ?_
    simp only [BLOCKS_IN_MEM] at hi hgt
    omega
  · have hngt : ¬(BLOCKS_IN_MEM < Blockchain.getBlockCountOnDisk d) := by omega
    simp only [Blockchain.load, if_neg hne, Bool.false_eq_true, if_false, if_neg hngt,
      Nat.sub_zero]
    set c := Blockchain.getBlockCountOnDisk d with hc
    set m := min (c + 1) BLOCKS_IN_MEM with hm
    have hsplit : List.range' 0 (BLOCKS_IN_MEM - 1 + 1) =
        List.range' 0 m ++ List.range' m (BLOCKS_IN_MEM - m) := by
      have happ := List.range'_append 0 m (BLOCKS_IN_MEM - m) 1
      simp only [one_mul, Nat.zero_add] at happ
      rw [show BLOCKS_IN_MEM - 1 + 1 = BLOCKS_IN_MEM - m + m from by
        simp only [hm, BLOCKS_IN_MEM]
        omega]
      exact happ.symm
    rw [hsplit, List.filterMap_append]
    rw [filterMap_eq_map_of_some d.blockAt f _ ?_, filterMap_eq_nil_of_none d.blockAt _ ?_,
      List.append_nil, List.range_eq_range']
    · intro i hi
      rw [List.mem_range'_1] at hi
      refine hnone i ?_
      simp only [hm, BLOCKS_IN_MEM] at hi hle
      omega
    · intro i hi
      rw [List.mem_range'_1] at hi
      refine hf i ?_
      simp only [hm, BLOCKS_IN_MEM] at hi
      omega

/-- Claim C7, counterexample: with count record 10 and keys 0..10 present,
`load(false)` reads only keys `0..9` — the window omits the persisted head
block 10, contradicting the claim that the most recent window including the
head is loaded. -/
theorem load_window_omits_head_at_boundary :
    Blockchain.load d10 false = (List.range 10).map blkW ∧
    Blockchain.getBlockCountOnDisk d10 = 10 ∧
    ¬(blkW 10 ∈ Blockchain.load d10 false) := by
  refine ⟨by decide, by decide, by decide⟩

/-- Witness for `load_characterization` on a store with count 3. -/
theorem load_characterization_witness :
    Blockchain.load d3 true = (List.range (Blockchain.getBlockCountOnDisk d3 + 1)).map blkW ∧
    Blockchain.load d3 false =
      (List.range (min (Blockchain.getBlockCountOnDisk d3 + 1) BLOCKS_IN_MEM)).map blkW := by
  have h := load_characterization d3 blkW
    (fun i hi => by
      have h3 : Blockchain.getBlockCountOnDisk d3 = 3 := rfl
      show (if i ≤ 3 then some (blkW i) else none) = some (blkW i)
      rw [if_pos (by omega)])
    (fun i hi => by
      have h3 : Blockchain.getBlockCountOnDisk d3 = 3 := rfl
      show (if i ≤ 3 then some (blkW i) else none) = none
      rw [if_neg (by omega)])
  exact ⟨h.2.1 (by decide), h.2.2.2 (by decide) (by decide)⟩

/-- `addBlock` leaves the node id, mempool and ledger untouched, and its
resulting block list always ends in the appended block (eviction only drops a
prefix). -/
lemma addBlock_fields (st : NodeState) (b : Block) :
    (Blockchain.addBlock st b).nodeId = st.nodeId ∧
    (Blockchain.addBlock st b).memPool = st.memPool ∧
    (Blockchain.addBlock st b).utxo = st.utxo ∧
    ∃ l, (Blockchain.addBlock st b).blocks = l ++ [b] := by
  simp only [Blockchain.addBlock]
  split
  · have hk : (st.blocks ++ [b]).length - BLOCKS_IN_MEM ≤ st.blocks.length := by
      simp only [List.length_append, List.length_cons, List.length_nil, BLOCKS_IN_MEM]
      omega
    exact ⟨rfl, rfl, rfl, _, List.drop_append_of_le_length hk⟩
  · exact ⟨rfl, rfl, rfl, st.blocks, rfl⟩

/-- `save`'s write loop distributes over append. -/
lemma storeBlocks_append (f : ℕ → Option Block) (l1 l2 : List Block) :
    storeBlocks f (l1 ++ l2) = storeBlocks (storeBlocks f l1) l2 := by
  simp [storeBlocks, List.foldl_append]

/-- After `save` writes a list ending in `b`, the record at `b.blockNumber`
holds `b` (its write is the last one to that key). -/
lemma storeBlocks_concat_self (f : ℕ → Option Block) (l : List Block) (b : Block) :
    storeBlocks f (l ++ [b]) b.blockNumber = some b := by
  rw [storeBlocks_append]
  show Function.update (storeBlocks f l) b.blockNumber (some b) b.blockNumber = some b
  rw [Function.update_same]

/-- Claim C5: whenever some nonce meets the proof-of-work target,
`createBlock` returns a block whose transactions are the reward transaction
(coinbase sender to this node's id, reward 50) followed by the mempool
snapshot, whose number is head's number + 1, whose `prevBlock` is the hash of
the previous head, whose nonce is the least one meeting the target, and whose
own hash meets the target; afterwards the block is the last of the in-memory
chain, the ledger has the block applied, the mempool is empty, and the chain
is persisted (count record = the new block's number, whose keyed record holds
the new block). -/
theorem createBlock_spec (hash : Block → String) (st : NodeState) (time : ℕ)
    (h : powHypothesis hash (Blockchain.getLastBlock st.blocks)
      (rewardTransaction st.nodeId :: st.memPool) time) :
    (Blockchain.createBlock hash st time h).1.transactions =
      Transaction.mk Blockchain.MINING_SENDER st.nodeId Blockchain.MINING_REWARD ::
        st.memPool ∧
    (Blockchain.createBlock hash st time h).1.blockNumber =
      (Blockchain.getLastBlock st.blocks).blockNumber + 1 ∧
    (Blockchain.createBlock hash st time h).1.prevBlock =
      hash (Blockchain.getLastBlock st.blocks) ∧
    Blockchain.isPoWValid (hash (Blockchain.createBlock hash st time h).1) = true ∧
    (∀ m, m < (Blockchain.createBlock hash st time h).1.nonce →
      Blockchain.isPoWValid (hash (mineCandidate hash (Blockchain.getLastBlock st.blocks)
        (rewardTransaction st.nodeId :: st.memPool) time m)) = false) ∧
    (Blockchain.createBlock hash st time h).2.blocks.getLast? =
      some (Blockchain.createBlock hash st time h).1 ∧
    (Blockchain.createBlock hash st time h).2.utxo =
      (UTXOPool.applyTransactionsFromBlock st.utxo
        (Blockchain.createBlock hash st time h).1).1 ∧
    (Blockchain.createBlock hash st time h).2.memPool = [] ∧
    (Blockchain.createBlock hash st time h).2.disk.blockCount =
      some (Blockchain.createBlock hash st time h).1.blockNumber ∧
    (Blockchain.createBlock hash st time h).2.disk.blockAt
        (Blockchain.createBlock hash st time h).1.blockNumber =
      some (Blockchain.createBlock hash st time h).1 := by
  obtain ⟨hnid, hpool, hutxo, l, hl⟩ :=
    addBlock_fields st (Blockchain.createBlock hash st time h).1
  have hbl : (Blockchain.createBlock hash st time h).2.blocks =
      (Blockchain.addBlock st (Blockchain.createBlock hash st time h).1).blocks := rfl
  have hbu : (Blockchain.createBlock hash st time h).2.utxo =
      (UTXOPool.applyTransactionsFromBlock
        (Blockchain.addBlock st (Blockchain.createBlock hash st time h).1).utxo
        (Blockchain.createBlock hash st time h).1).1 := rfl
  have hbd : (Blockchain.createBlock hash st time h).2.disk =
      Blockchain.save (Blockchain.addBlock st (Blockchain.createBlock hash st time h).1).disk
        (Blockchain.addBlock st (Blockchain.createBlock hash st time h).1).blocks := rfl
  refine ⟨rfl, rfl, rfl, Nat.find_spec h, ?_, ?_, ?_, rfl, ?_, ?_⟩
  · intro m hm
    have hmin := Nat.find_min h hm
    simpa using hmin
  · rw [hbl, hl, List.getLast?_concat]
  · rw [hbu, hutxo]
  · rw [hbd]
    show some (Blockchain.getLastBlock
      (Blockchain.addBlock st (Blockchain.createBlock hash st time h).1).blocks).blockNumber =
      some (Blockchain.createBlock hash st time h).1.blockNumber
    rw [hl, Blockchain.getLastBlock, List.getLast?_concat]
    rfl
  · rw [hbd]
    show storeBlocks
      (Blockchain.addBlock st (Blockchain.createBlock hash st time h).1).disk.blockAt
      (Blockchain.addBlock st (Blockchain.createBlock hash st time h).1).blocks
      (Blockchain.createBlock hash st time h).1.blockNumber =
      some (Blockchain.createBlock hash st time h).1
    rw [hl]
    exact storeBlocks_concat_self _ l _

/-- The mining termination hypothesis holds for `hash0` at the fresh node
`st5`: nonce 0 already meets the target. -/
theorem powH0 : powHypothesis hash0 (Blockchain.getLastBlock st5.blocks)
    (rewardTransaction st5.nodeId :: st5.memPool) 5 :=
  ⟨0, by decide⟩

/-- Witness for `createBlock_spec` on the fresh node `st5` under `hash0`. -/
theorem createBlock_spec_witness :
    (Blockchain.createBlock hash0 st5 5 powH0).1.transactions =
      Transaction.mk Blockchain.MINING_SENDER st5.nodeId Blockchain.MINING_REWARD ::
        st5.memPool ∧
    (Blockchain.createBlock hash0 st5 5 powH0).2.memPool = [] ∧
    Blockchain.isPoWValid (hash0 (Blockchain.createBlock hash0 st5 5 powH0).1) = true :=
  ⟨(createBlock_spec hash0 st5 5 powH0).1,
   (createBlock_spec hash0 st5 5 powH0).2.2.2.2.2.2.2.1,
   (createBlock_spec hash0 st5 5 powH0).2.2.2.1⟩

/-- Unfolding of `addBlock` when the appended list overflows the window. -/
lemma addBlock_of_overflow (st : NodeState) (b : Block)
    (h : BLOCKS_IN_MEM < (st.blocks ++ [b]).length) :
    Blockchain.addBlock st b =
      ⟨st.nodeId, (st.blocks ++ [b]).drop ((st.blocks ++ [b]).length - BLOCKS_IN_MEM),
       st.memPool, st.utxo, Blockchain.save st.disk (st.blocks ++ [b])⟩ := by
  simp only [Blockchain.addBlock]
  rw [if_pos h]

/-- Unfolding of `addBlock` when the appended list still fits the window. -/
lemma addBlock_of_fit (st : NodeState) (b : Block)
    (h : ¬BLOCKS_IN_MEM < (st.blocks ++ [b]).length) :
    Blockchain.addBlock st b =
      ⟨st.nodeId, st.blocks ++ [b], st.memPool, st.utxo, st.disk⟩ := by
  simp only [Blockchain.addBlock]
  rw [if_neg h]

/-- Writing the consecutively numbered blocks `g a, …, g (a+len-1)` into the
store overwrites exactly the keys of that window. -/
lemma storeBlocks_range' (g : ℕ → Block) (hg : ∀ i, (g i).blockNumber = i) :
    ∀ (len a : ℕ) (f : ℕ → Option Block) (i : ℕ),
      storeBlocks f ((List.range' a len).map g) i =
        if a ≤ i ∧ i < a + len then some (g i) else f i := by
  intro len
  induction len with
  | zero =>
    intro a f i
    rw [if_neg (by omega)]
    rfl
  | succ len ih =>
    intro a f i
    rw [List.range'_succ, List.map_cons]
    have hstep : storeBlocks f (g a :: (List.range' (a + 1) len).map g) =
        storeBlocks (Function.update f (g a).blockNumber (some (g a)))
          ((List.range' (a + 1) len).map g) := rfl
    rw [hstep, hg a, ih]
    by_cases h1 : a + 1 ≤ i ∧ i < a + 1 + len
    · rw [if_pos h1, if_pos (by omega)]
    · rw [if_neg h1, Function.update_apply]
      by_cases h2 : i = a
      · subst h2
        rw [if_pos rfl, if_pos (by omega)]
      · rw [if_neg h2, if_neg (by omega)]

/-- One unfolding step of the append scenario. -/
lemma chainAfterAppends_succ (g : ℕ → Block) (st0 : NodeState) (n : ℕ) :
    chainAfterAppends g st0 (n + 1) =
      Blockchain.addBlock (chainAfterAppends g st0 n) (g (n + 1)) := by
  rw [chainAfterAppends, chainAfterAppends, List.range'_concat]
  rw [show 1 + 1 * n = n + 1 from by omega]
  rw [List.map_append, List.foldl_append]
  rfl

/-- Invariant of the append scenario: after appending `g 1, …, g n` to
`[g 0]`, memory holds exactly the most recent `min (n+1) BLOCKS_IN_MEM`
blocks; the store is untouched until the window first overflows, after which
the count record is `n` and the store holds exactly blocks `0..n`. -/
lemma chainAfterAppends_spec (g : ℕ → Block) (hg : ∀ i, (g i).blockNumber = i)
    (st0 : NodeState) (h0b : st0.blocks = [g 0]) (h0d : st0.disk = emptyDisk) :
    ∀ n : ℕ,
      (chainAfterAppends g st0 n).blocks =
        (List.range' (n + 1 - min (n + 1) BLOCKS_IN_MEM) (min (n + 1) BLOCKS_IN_MEM)).map g ∧
      (n + 1 ≤ BLOCKS_IN_MEM → (chainAfterAppends g st0 n).disk = emptyDisk) ∧
      (BLOCKS_IN_MEM < n + 1 →
        (chainAfterAppends g st0 n).disk.blockCount = some n ∧
        ∀ i, (chainAfterAppends g st0 n).disk.blockAt i =
          if i ≤ n then some (g i) else none) := by
  intro n
  induction n with
  | zero =>
    refine ⟨?_, fun _ => h0d, fun hlt => absurd hlt (by decide)⟩
    show st0.blocks = _
    rw [h0b]
    simp [BLOCKS_IN_MEM, Nat.min_def, List.range']
  | succ n ih =>
    obtain ⟨ihb, ihd1, ihd2⟩ := ih
    have hlen : (chainAfterAppends g st0 n).blocks.length = min (n + 1) BLOCKS_IN_MEM := by
      rw [ihb, List.length_map, List.length_range']
    rw [chainAfterAppends_succ]
    by_cases hA : n + 1 + 1 ≤ BLOCKS_IN_MEM
    · have hfit : ¬BLOCKS_IN_MEM <
          ((chainAfterAppends g st0 n).blocks ++ [g (n + 1)]).length := by
        rw [List.length_append, hlen]
        simp only [List.length_cons, List.length_nil, BLOCKS_IN_MEM] at hA ⊢
        omega
      rw [addBlock_of_fit _ _ hfit]
      refine ⟨?_, fun _ => ihd1 (by omega), fun hlt => absurd hlt (by omega)⟩
      show (chainAfterAppends g st0 n).blocks ++ [g (n + 1)] = _
      rw [ihb,
        show min (n + 1) BLOCKS_IN_MEM = n + 1 from by
          simp only [BLOCKS_IN_MEM] at hA ⊢; omega,
        show min (n + 1 + 1) BLOCKS_IN_MEM = n + 1 + 1 from by
          simp only [BLOCKS_IN_MEM] at hA ⊢; omega,
        Nat.sub_self, Nat.sub_self, List.range'_concat 0 (n + 1),
        show 0 + 1 * (n + 1) = n + 1 from by omega, List.map_append]
      rfl
    · have hKle : BLOCKS_IN_MEM ≤ n + 1 := by omega
      have hminK : min (n + 1) BLOCKS_IN_MEM = BLOCKS_IN_MEM := by omega
      have hbs : (chainAfterAppends g st0 n).blocks ++ [g (n + 1)] =
          (List.range' (n + 1 - BLOCKS_IN_MEM) (BLOCKS_IN_MEM + 1)).map g := by
        rw [ihb, hminK, List.range'_concat (n + 1 - BLOCKS_IN_MEM) BLOCKS_IN_MEM,
          show n + 1 - BLOCKS_IN_MEM + 1 * BLOCKS_IN_MEM = n + 1 from by omega,
          List.map_append]
        rfl
      have hov : BLOCKS_IN_MEM <
          ((chainAfterAppends g st0 n).blocks ++ [g (n + 1)]).length := by
        rw [List.length_append, hlen]
        simp only [List.length_cons, List.length_nil]
        omega
      rw [addBlock_of_overflow _ _ hov]
      refine ⟨?_, fun hle => absurd hle (by omega), fun _ => ⟨?_, ?_⟩⟩
      · show ((chainAfterAppends g st0 n).blocks ++ [g (n + 1)]).drop
            (((chainAfterAppends g st0 n).blocks ++ [g (n + 1)]).length - BLOCKS_IN_MEM) = _
        rw [hbs, List.length_map, List.length_range',
          show BLOCKS_IN_MEM + 1 - BLOCKS_IN_MEM = 1 from by omega,
          List.range'_succ, List.map_cons, List.drop_succ_cons, List.drop_zero,
          show min (n + 1 + 1) BLOCKS_IN_MEM = BLOCKS_IN_MEM from by omega,
          show n + 1 + 1 - BLOCKS_IN_MEM = n + 1 - BLOCKS_IN_MEM + 1 from by omega]
      · show some (Blockchain.getLastBlock
            ((chainAfterAppends g st0 n).blocks ++ [g (n + 1)])).blockNumber = some (n + 1)
        rw [Blockchain.getLastBlock, List.getLast?_concat]
        simp [hg]
      · intro i
        show storeBlocks (chainAfterAppends g st0 n).disk.blockAt
            ((chainAfterAppends g st0 n).blocks ++ [g (n + 1)]) i = _
        rw [hbs, storeBlocks_range' g hg]
        by_cases hfirst : BLOCKS_IN_MEM < n + 1
        · rw [(ihd2 hfirst).2 i]
          by_cases hi : i ≤ n + 1
          · rw [if_pos hi]
            by_cases hw : n + 1 - BLOCKS_IN_MEM ≤ i ∧ i < n + 1 - BLOCKS_IN_MEM +
                (BLOCKS_IN_MEM + 1)
            · rw [if_pos hw]
            · rw [if_neg hw, if_pos (by omega)]
          · rw [if_neg hi, if_neg (by omega), if_neg (by omega)]
        · have hdisk := ihd1 (by omega)
          rw [hdisk]
          show (if n + 1 - BLOCKS_IN_MEM ≤ i ∧ i < n + 1 - BLOCKS_IN_MEM +
              (BLOCKS_IN_MEM + 1) then some (g i) else none) = _
          by_cases hi : i ≤ n + 1
          · rw [if_pos (by omega), if_pos hi]
          · rw [if_neg (by omega), if_neg hi]

/-- Claim C6: after a sequence of appends of consecutively numbered blocks,
memory holds exactly the `min (total, BLOCKS_IN_MEM)` most recent blocks;
once the total exceeds `BLOCKS_IN_MEM`, the persisted count equals the head's
number and `getAllBlocks` reproduces the complete sequence of blocks from 0
up to the persisted head (the pre-eviction persist keeps every evicted block
recoverable). -/
theorem windowing_roundtrip (g : ℕ → Block) (hg : ∀ i, (g i).blockNumber = i)
    (st0 : NodeState) (h0b : st0.blocks = [g 0]) (h0d : st0.disk = emptyDisk)
    (n : ℕ) :
    (chainAfterAppends g st0 n).blocks =
      (List.range' (n + 1 - min (n + 1) BLOCKS_IN_MEM) (min (n + 1) BLOCKS_IN_MEM)).map g ∧
    (BLOCKS_IN_MEM < n + 1 →
      Blockchain.getBlockCountOnDisk (chainAfterAppends g st0 n).disk = n ∧
      Blockchain.getAllBlocks (chainAfterAppends g st0 n).disk =
        ((List.range (n + 1)).map g).map some) := by
  obtain ⟨hb, _, hd⟩ := chainAfterAppends_spec g hg st0 h0b h0d n
  refine ⟨hb, fun hlt => ?_⟩
  obtain ⟨hcount, hat⟩ := hd hlt
  have hc : Blockchain.getBlockCountOnDisk (chainAfterAppends g st0 n).disk = n := by
    rw [Blockchain.getBlockCountOnDisk, hcount]
    rfl
  refine ⟨hc, ?_⟩
  simp only [Blockchain.getAllBlocks, hc]
  rw [if_neg (by simp only [BLOCKS_IN_MEM] at hlt; omega)]
  rw [List.map_map]
  refine List.map_congr_left ?_
  intro i hi
  rw [List.mem_range] at hi
  rw [hat i, if_pos (by omega)]
  rfl

/-- Witness for `windowing_roundtrip`: 12 appends onto `[blkW 0]` leave
blocks 3..12 in memory while `getAllBlocks` reproduces blocks 0..12. -/
theorem windowing_roundtrip_witness :
    (chainAfterAppends blkW stW6 12).blocks =
      (List.range' (12 + 1 - min (12 + 1) BLOCKS_IN_MEM)
        (min (12 + 1) BLOCKS_IN_MEM)).map blkW ∧
    Blockchain.getAllBlocks (chainAfterAppends blkW stW6 12).disk =
      ((List.range (12 + 1)).map blkW).map some :=
  ⟨(windowing_roundtrip blkW (fun i => rfl) stW6 rfl rfl 12).1,
   ((windowing_roundtrip blkW (fun i => rfl) stW6 rfl rfl 12).2 (by decide)).2⟩
